import Mathlib

/-
Verification of the Simple-Transcript subtitle generator
(src/Transcriber/main.py) against its natural-language specification.

The embedding models Python strings as lists of characters (`Chars`),
float seconds as exact rationals (`ℚ`), and the filesystem of the
unique-filename resolver as a list of existing paths together with a
fuel-bounded loop returning `Option`.  Fallible code paths (access to a
possibly-unbound variable, a non-terminating existence-probing loop)
are modelled with `Option`.
-/

namespace Transcriber

/-- Python strings are modelled as lists of characters. -/
abbrev Chars := List Char

/-- Decimal digit to character, as produced by Python `str` on integers. -/
def digitToChar (d : Nat) : Char :=
  if d = 0 then '0'
  else if d = 1 then '1'
  else if d = 2 then '2'
  else if d = 3 then '3'
  else if d = 4 then '4'
  else if d = 5 then '5'
  else if d = 6 then '6'
  else if d = 7 then '7'
  else if d = 8 then '8'
  else '9'

/-- Big-endian decimal digits of `n`, with explicit fuel so the kernel can
evaluate it.  `natToDigitsAux fuel n` is the digit string of `n` whenever
`n ≤ fuel` (and `[]` for `n = 0`). -/
def natToDigitsAux : Nat → Nat → Chars
  | 0, _ => []
  | fuel + 1, n =>
    if n = 0 then []
    else natToDigitsAux fuel (n / 10) ++ [digitToChar (n % 10)]

/-- Python `str(n)` for a natural number. -/
def natStr (n : Nat) : Chars :=
  if n = 0 then ['0'] else natToDigitsAux (n + 1) n

/-- Value of a big-endian string of decimal digit characters
(`int(s)` on an all-digit string). -/
def natOfDigitChars (ds : Chars) : Nat :=
  ds.foldl (fun a c => a * 10 + (c.toNat - 48)) 0

/-- Python `f"{i:0wd}"`: zero-pad the decimal rendering of `i` to width `w`
(the sign, when present, counts towards the width). -/
def zfill (w : Nat) (i : ℤ) : Chars :=
  if i < 0 then
    '-' :: (List.replicate (w - 1 - (natStr (-i).toNat).length) '0' ++ natStr (-i).toNat)
  else
    List.replicate (w - (natStr i.toNat).length) '0' ++ natStr i.toNat

/-- Python `int(x)` on a real value: truncation toward zero. -/
def pyInt (x : ℚ) : ℤ := if 0 ≤ x then ⌊x⌋ else -⌊-x⌋

/-- Python `x // y` on floats: floor division (result is again a number). -/
def pyFloorDiv (x y : ℚ) : ℚ := (⌊x / y⌋ : ℚ)

/-- Python `x % y` on floats: `x - y * ⌊x / y⌋`. -/
def pyMod (x y : ℚ) : ℚ := x - y * (⌊x / y⌋ : ℚ)

/-- `TranscriberGUI.format_timestamp`: `HH:MM:SS,mmm` from a seconds value.
Mirrors
`hours = int(seconds // 3600)`, `minutes = int((seconds % 3600) // 60)`,
`secs = int(seconds % 60)`, `millis = int((seconds - int(seconds)) * 1000)`,
rendered as `f"{hours:02d}:{minutes:02d}:{secs:02d},{millis:03d}"`. -/
def format_timestamp (seconds : ℚ) : Chars :=
  let hours := pyInt (pyFloorDiv seconds 3600)
  let minutes := pyInt (pyFloorDiv (pyMod seconds 3600) 60)
  let secs := pyInt (pyMod seconds 60)
  let millis := pyInt ((seconds - (pyInt seconds : ℚ)) * 1000)
  zfill 2 hours ++ ':' :: zfill 2 minutes ++ ':' :: zfill 2 secs ++ ',' :: zfill 3 millis

/-- Python `str.lstrip()`: drop leading whitespace. -/
def lstrip (s : Chars) : Chars := s.dropWhile Char.isWhitespace

/-- Python `str.rstrip()`: drop trailing whitespace. -/
def rstrip (s : Chars) : Chars := (s.reverse.dropWhile Char.isWhitespace).reverse

/-- Python `str.strip()`: drop leading and trailing whitespace. -/
def strip (s : Chars) : Chars := lstrip (rstrip s)

/-- Worker for `splitWs`; `cur` is the current token accumulated in reverse. -/
def splitWsGo (cur : Chars) : Chars → List Chars
  | [] => if cur = [] then [] else [cur.reverse]
  | c :: rest =>
    if c.isWhitespace then
      if cur = [] then splitWsGo [] rest else cur.reverse :: splitWsGo [] rest
    else
      splitWsGo (c :: cur) rest

/-- Python `str.split()` with no arguments: split on runs of whitespace,
discarding empty tokens. -/
def splitWs (s : Chars) : List Chars := splitWsGo [] s

/-- Worker for `replaceAll` with a nonempty pattern `o :: os`: scan left to
right; whenever the pattern occurs, skip it (replacement by the empty
string), otherwise copy one character.  The fuel argument (always called
with at least the string's length) makes the recursion structural, so the
kernel can evaluate it. -/
def replaceAllGo (o : Char) (os : Chars) : Nat → Chars → Chars
  | _, [] => []
  | 0, s => s
  | fuel + 1, c :: rest =>
    if c = o ∧ rest.take os.length = os then
      replaceAllGo o os fuel (rest.drop os.length)
    else
      c :: replaceAllGo o os fuel rest

/-- Python `text.replace(old, "")`: remove all non-overlapping left-to-right
occurrences of the literal substring `old` (identity when `old` is empty,
matching Python's behaviour for an empty pattern and empty replacement). -/
def replaceAll (old s : Chars) : Chars :=
  match old with
  | [] => s
  | o :: os => replaceAllGo o os s.length s

/-- The loop body of `TranscriberGUI.clean_text` over an explicit token
list: `for char in chars: text = text.replace(char, '')`. -/
def cleanToks (toks : List Chars) (text : Chars) : Chars :=
  toks.foldl (fun t tok => replaceAll tok t) text

/-- `TranscriberGUI.clean_text`: split the filter string on whitespace and
remove each token, in order, from the text. -/
def clean_text (chars_to_remove text : Chars) : Chars :=
  cleanToks (splitWs chars_to_remove) text

/-- A word of the word-level engine output: `{start, text}` (the code reads
only these two fields). -/
structure Word where
  start : ℚ
  text : Chars
deriving DecidableEq

/-- A segment of the engine output: `{start, end, text, words}`. -/
structure Segment where
  start : ℚ
  stop : ℚ
  text : Chars
  words : List Word
deriving DecidableEq

/-- One SRT cue as written to the output file. -/
structure Cue where
  index : Nat
  start : ℚ
  stop : ℚ
  text : Chars
deriving DecidableEq

/-- Loop state of `create_word_srt`: `current_text`, `current_start`,
`subtitle_count`, and the cues written so far. -/
structure WState where
  currentText : Chars
  currentStart : Option ℚ
  count : Nat
  cues : List Cue
deriving DecidableEq

/-- Body of the inner loop of `TranscriberGUI.create_word_srt`, processing
one word. -/
def processWord (f : Chars) (charLimit : Nat) (st : WState) (w : Word) : WState :=
  let cleaned := clean_text f w.text
  if strip cleaned = [] then st
  else
    let start0 := st.currentStart.getD w.start
    if charLimit < (st.currentText ++ cleaned).length then
      ⟨cleaned ++ [' '], some w.start, st.count + 1,
        st.cues ++ [⟨st.count, start0, w.start, strip st.currentText⟩]⟩
    else
      ⟨st.currentText ++ (cleaned ++ [' ']), some start0, st.count, st.cues⟩

/-- The two nested loops of `create_word_srt`. -/
def runWords (f : Chars) (cl : Nat) (st : WState) (segs : List Segment) : WState :=
  segs.foldl (fun st seg => seg.words.foldl (processWord f cl) st) st

/-- `TranscriberGUI.create_word_srt`.  After the loops, when the buffer is
nonempty one trailing cue is written whose end is `segment['end']` of the
loop variable `segment`, i.e. the LAST element of the segment list; if that
variable is unbound (no segments) or `current_start` is unset, the Python
code would raise, modelled as `none`. -/
def create_word_srt (f : Chars) (cl : Nat) (segs : List Segment) : Option (List Cue) :=
  let st := runWords f cl ⟨[], none, 1, []⟩ segs
  if st.currentText = [] then some st.cues
  else
    match segs.getLast?, st.currentStart with
    | some seg, some s => some (st.cues ++ [⟨st.count, s, seg.stop, strip st.currentText⟩])
    | _, _ => none

/-- Body of the loop of `TranscriberGUI.create_sentence_srt`: the
accumulator is `(subtitle_count, cues written so far)`. -/
def sentStep (f : Chars) (acc : Nat × List Cue) (seg : Segment) : Nat × List Cue :=
  let cleaned := strip (clean_text f seg.text)
  if cleaned = [] then acc
  else (acc.1 + 1, acc.2 ++ [⟨acc.1, seg.start, seg.stop, cleaned⟩])

/-- `TranscriberGUI.create_sentence_srt`. -/
def create_sentence_srt (f : Chars) (segs : List Segment) : List Cue :=
  (segs.foldl (sentStep f) (1, [])).2

/-- A `pathlib.Path` as used by `get_unique_filename`: parent directory,
stem, and extension. -/
structure PyPath where
  parent : Chars
  stem : Chars
  suffix : Chars
deriving DecidableEq

/-- Build the stem `base(c)`. -/
def mkStem (b : Chars) (c : Nat) : Chars := b ++ '(' :: (natStr c ++ [')'])

/-- Worker for `parseSuffix` on the reversed stem. -/
def parseSuffixRev : Chars → Option (Chars × Nat)
  | [] => none
  | c :: rest =>
    if c = ')' then
      let ds := rest.takeWhile Char.isDigit
      let rest2 := rest.dropWhile Char.isDigit
      if ds = [] then none
      else
        match rest2 with
        | [] => none
        | d :: baseRev =>
          if d = '(' then some (baseRev.reverse, natOfDigitChars ds.reverse)
          else none
    else none

/-- The regex match `re.match(r"(.*?)\((\d+)\)$", stem)`: the whole stem
must be `base(digits)`; with the lazy base and the anchors this succeeds
exactly when the stem ends in `')'` preceded by a nonempty digit run
preceded by `'('`, the base being everything before that `'('`. -/
def parseSuffix (stem : Chars) : Option (Chars × Nat) :=
  parseSuffixRev stem.reverse

/-- The `while new_path.exists()` loop of `get_unique_filename`, with the
filesystem as the list `fs` of existing paths and explicit fuel (`none`
models a run that did not exit within the fuel, or the AttributeError that
a failed re-match inside the loop would raise). -/
def uniqueLoop (fs : List PyPath) : Nat → PyPath → Option PyPath
  | 0, _ => none
  | fuel + 1, p =>
    if p ∈ fs then
      match parseSuffix p.stem with
      | some (b, c) => uniqueLoop fs fuel ⟨p.parent, mkStem b (c + 1), p.suffix⟩
      | none => none
    else some p

/-- `TranscriberGUI.get_unique_filename`: eagerly append `(1)` (or bump an
existing `(n)` to `(n+1)`), then keep incrementing while the candidate
exists. -/
def get_unique_filename (fs : List PyPath) (fuel : Nat) (path : PyPath) : Option PyPath :=
  let stem1 :=
    match parseSuffix path.stem with
    | some (b, c) => mkStem b (c + 1)
    | none => mkStem path.stem 1
  uniqueLoop fs fuel ⟨path.parent, stem1, path.suffix⟩

/-- Modelled from the spec (claim wording): the end time of the last
contributing source segment, i.e. of the last segment that supplied a word
whose cleaned text is non-empty after trimming.  Used only to compare the
code's behaviour with the claim's wording. -/
def specLastContributingStop (f : Chars) (segs : List Segment) : Option ℚ :=
  ((segs.filter
      (fun seg => seg.words.any (fun w => !(strip (clean_text f w.text)).isEmpty))).getLast?).map
    Segment.stop

/-! ### Basic lemmas about the string helpers -/

theorem length_dropWhile_le (p : Char → Bool) (l : Chars) :
    (l.dropWhile p).length ≤ l.length :=
  (List.dropWhile_sublist p).length_le

theorem rstrip_append_space (s : Chars) : rstrip (s ++ [' ']) = rstrip s := by
  unfold rstrip
  rw [List.reverse_append]
  simp [List.dropWhile_cons]

theorem strip_append_space (s : Chars) : strip (s ++ [' ']) = strip s := by
  unfold strip
  rw [rstrip_append_space]

theorem strip_length_le (s : Chars) : (strip s).length ≤ s.length := by
  unfold strip lstrip rstrip
  calc ((s.reverse.dropWhile Char.isWhitespace).reverse.dropWhile Char.isWhitespace).length
      ≤ (s.reverse.dropWhile Char.isWhitespace).reverse.length := length_dropWhile_le ..
    _ = (s.reverse.dropWhile Char.isWhitespace).length := List.length_reverse ..
    _ ≤ s.reverse.length := length_dropWhile_le ..
    _ = s.length := List.length_reverse ..

theorem strip_nil : strip [] = [] := rfl

/-- Generic preservation of an invariant along `List.foldl`, with access to
list membership of the consumed element. -/
theorem foldl_preserve {α σ : Type _} (f : σ → α → σ) (P : σ → Prop) :
    ∀ (l : List α) (s : σ), (∀ t a, a ∈ l → P t → P (f t a)) → P s → P (l.foldl f s) := by
  intro l
  induction l with
  | nil => intro s _ hs; exact hs
  | cons a l ih =>
    intro s h hs
    exact ih (f s a) (fun t b hb ht => h t b (List.mem_cons_of_mem _ hb) ht)
      (h s a (List.mem_cons_self ..) hs)

theorem range'_snoc (a n : Nat) : List.range' a (n + 1) = List.range' a n ++ [a + n] := by
  induction n generalizing a with
  | zero => rfl
  | succ n ih =>
    show a :: List.range' (a + 1) (n + 1) = (a :: List.range' (a + 1) n) ++ [a + (n + 1)]
    rw [ih (a + 1)]
    simp only [List.cons_append, List.cons.injEq, true_and, List.append_cancel_left_eq,
      List.cons.injEq, and_true]
    omega

/-! ### Lemmas about single-character removals (for the text cleaner) -/

theorem replaceAllGo_single (c : Char) :
    ∀ (fuel : Nat) (s : Chars), s.length ≤ fuel →
      replaceAllGo c [] fuel s = s.filter (fun x => x != c) := by
  intro fuel
  induction fuel with
  | zero =>
    intro s hs
    have : s = [] := List.eq_nil_of_length_eq_zero (Nat.le_zero.mp hs)
    subst this
    rfl
  | succ fuel ih =>
    intro s hs
    match s with
    | [] => rfl
    | x :: rest =>
      simp only [replaceAllGo, List.length_nil, List.take_zero, List.drop_zero]
      have hlen : rest.length ≤ fuel := by
        simp only [List.length_cons] at hs
        omega
      by_cases hx : x = c
      · rw [if_pos ⟨hx, trivial⟩, ih rest hlen]
        simp [hx]
      · rw [if_neg (by simp [hx]), ih rest hlen]
        simp [hx]

theorem replaceAll_single (c : Char) (s : Chars) :
    replaceAll [c] s = s.filter (fun x => x != c) :=
  replaceAllGo_single c s.length s le_rfl

theorem mem_of_mem_replaceAll_single {x c : Char} {s : Chars}
    (h : x ∈ replaceAll [c] s) : x ∈ s := by
  rw [replaceAll_single] at h
  exact (List.mem_filter.mp h).1

theorem not_mem_replaceAll_single (c : Char) (s : Chars) : c ∉ replaceAll [c] s := by
  rw [replaceAll_single]
  simp

theorem replaceAll_single_of_not_mem {c : Char} {s : Chars} (h : c ∉ s) :
    replaceAll [c] s = s := by
  rw [replaceAll_single]
  apply List.filter_eq_self.mpr
  intro a ha
  simp only [bne_iff_ne, ne_eq, decide_eq_true_eq]
  intro heq
  exact h (heq ▸ ha)

theorem cleanToks_cons (t : Chars) (toks : List Chars) (s : Chars) :
    cleanToks (t :: toks) s = cleanToks toks (replaceAll t s) := rfl

theorem mem_of_mem_cleanToks {x : Char} :
    ∀ (toks : List Chars) (s : Chars), (∀ t ∈ toks, t.length = 1) →
      x ∈ cleanToks toks s → x ∈ s := by
  intro toks
  induction toks with
  | nil => intro s _ h; exact h
  | cons t rest ih =>
    intro s htoks h
    rw [cleanToks_cons] at h
    have hx : x ∈ replaceAll t s :=
      ih (replaceAll t s) (fun u hu => htoks u (List.mem_cons_of_mem _ hu)) h
    obtain ⟨c, rfl⟩ : ∃ c, t = [c] := by
      have := htoks t (List.mem_cons_self ..)
      match t, this with
      | [c], _ => exact ⟨c, rfl⟩
    exact mem_of_mem_replaceAll_single hx

theorem not_mem_cleanToks {c : Char} :
    ∀ (toks : List Chars) (s : Chars), (∀ t ∈ toks, t.length = 1) →
      [c] ∈ toks → c ∉ cleanToks toks s := by
  intro toks
  induction toks with
  | nil => intro s _ h; exact absurd h (List.not_mem_nil _)
  | cons t rest ih =>
    intro s htoks hc hmem
    rw [cleanToks_cons] at hmem
    have hrest : ∀ u ∈ rest, u.length = 1 := fun u hu => htoks u (List.mem_cons_of_mem _ hu)
    rcases List.mem_cons.mp hc with heq | hin
    · subst heq
      exact not_mem_replaceAll_single c s (mem_of_mem_cleanToks rest _ hrest hmem)
    · exact ih (replaceAll t s) hrest hin hmem

theorem cleanToks_fixed :
    ∀ (toks : List Chars) (u : Chars), (∀ t ∈ toks, t.length = 1) →
      (∀ d, [d] ∈ toks → d ∉ u) → cleanToks toks u = u := by
  intro toks
  induction toks with
  | nil => intro u _ _; rfl
  | cons t rest ih =>
    intro u htoks hnm
    obtain ⟨c, rfl⟩ : ∃ c, t = [c] := by
      have := htoks t (List.mem_cons_self ..)
      match t, this with
      | [c], _ => exact ⟨c, rfl⟩
    rw [cleanToks_cons, replaceAll_single_of_not_mem (hnm c (List.mem_cons_self ..))]
    exact ih u (fun u hu => htoks u (List.mem_cons_of_mem _ hu))
      (fun d hd => hnm d (List.mem_cons_of_mem _ hd))

/-! ### C5: idempotence of the text cleaner -/

/-- C5 (counterexample): the cleaner is not idempotent for every text and
every whitespace-split removal set.  With the filter string `"ab"` (one
removal token `"ab"`) and the text `"aabb"`, one pass yields `"ab"` and a
second pass yields `""`, so `clean(clean(t,R),R) ≠ clean(t,R)`. -/
theorem clean_text_not_idempotent :
    clean_text ['a', 'b'] (clean_text ['a', 'b'] ['a', 'a', 'b', 'b']) ≠
      clean_text ['a', 'b'] ['a', 'a', 'b', 'b'] ∧
    clean_text ['a', 'b'] ['a', 'a', 'b', 'b'] = ['a', 'b'] ∧
    clean_text ['a', 'b'] ['a', 'b'] = [] := by
  decide

/-- C5 (amended): the text cleaner is idempotent whenever every removal
token obtained by whitespace-splitting the filter string is a single
character (as the UI intends: "Characters separated by space"): removing a
character can never recreate an occurrence of any removal token. -/
theorem clean_text_idempotent_single_char (f t : Chars)
    (h : ∀ tok ∈ splitWs f, tok.length = 1) :
    clean_text f (clean_text f t) = clean_text f t := by
  unfold clean_text
  exact cleanToks_fixed (splitWs f) (cleanToks (splitWs f) t) h
    (fun d hd => not_mem_cleanToks (splitWs f) t h hd)

/-- Witness for the amended C5 at the filter string `"a b"` and text
`"banana"`. -/
theorem clean_text_idempotent_single_char_witness :
    clean_text ['a', ' ', 'b'] (clean_text ['a', ' ', 'b'] ['b', 'a', 'n', 'a', 'n', 'a']) =
      clean_text ['a', ' ', 'b'] ['b', 'a', 'n', 'a', 'n', 'a'] :=
  clean_text_idempotent_single_char ['a', ' ', 'b'] ['b', 'a', 'n', 'a', 'n', 'a'] (by decide)

/-! ### C3: the overflow step of word-level segmentation -/

/-- C3: when a word's cleaned text is non-empty and adding it to the pending
buffer would exceed the character limit, the pending cue is closed with
start `pending_start`, end the overflow word's own start, and text the
trimmed buffer; the buffer restarts as `cleaned_word + " "` and
`pending_start` becomes this word's start (and the counter advances). -/
theorem processWord_overflow (f : Chars) (cl : Nat) (st : WState) (w : Word) (s : ℚ)
    (hs : st.currentStart = some s)
    (hne : strip (clean_text f w.text) ≠ [])
    (hov : cl < (st.currentText ++ clean_text f w.text).length) :
    processWord f cl st w =
      ⟨clean_text f w.text ++ [' '], some w.start, st.count + 1,
        st.cues ++ [⟨st.count, s, w.start, strip st.currentText⟩]⟩ := by
  unfold processWord
  rw [if_neg hne, hs]
  simp only [Option.getD_some]
  rw [if_pos hov]

/-- Witness for C3 at a concrete state and word: buffer `"Hi "`, pending
start `0`, incoming word `"you!"` at `1` with limit `5`. -/
theorem processWord_overflow_witness :
    processWord [] 5 ⟨['H', 'i', ' '], some 0, 1, []⟩ ⟨1, ['y', 'o', 'u', '!']⟩ =
      ⟨['y', 'o', 'u', '!', ' '], some 1, 2, [⟨1, 0, 1, ['H', 'i']⟩]⟩ := by
  have h := processWord_overflow [] 5 ⟨['H', 'i', ' '], some 0, 1, []⟩ ⟨1, ['y', 'o', 'u', '!']⟩ 0
    rfl (by decide) (by decide)
  rw [h]
  decide

/-! ### C6: the timestamp formatter -/

theorem pyInt_intCast (n : ℤ) : pyInt (n : ℚ) = n := by
  unfold pyInt
  split
  · exact Int.floor_intCast n
  · rw [← Int.cast_neg, Int.floor_intCast]
    omega

theorem pyInt_of_nonneg {x : ℚ} (h : 0 ≤ x) : pyInt x = ⌊x⌋ := if_pos h

theorem pyMod_nonneg (x : ℚ) {y : ℚ} (hy : 0 < y) : 0 ≤ pyMod x y := by
  unfold pyMod
  have h1 : (⌊x / y⌋ : ℚ) ≤ x / y := Int.floor_le _
  have h2 : y * (⌊x / y⌋ : ℚ) ≤ y * (x / y) :=
    mul_le_mul_of_nonneg_left h1 (le_of_lt hy)
  rw [mul_div_cancel₀ x (ne_of_gt hy)] at h2
  linarith

theorem format_timestamp_eq (s : ℚ) (hs : 0 ≤ s) :
    format_timestamp s =
      zfill 2 ⌊s / 3600⌋ ++ ':' :: zfill 2 ⌊(s - 3600 * (⌊s / 3600⌋ : ℚ)) / 60⌋ ++
        ':' :: zfill 2 ⌊s - 60 * (⌊s / 60⌋ : ℚ)⌋ ++ ',' :: zfill 3 ⌊(s - (⌊s⌋ : ℚ)) * 1000⌋ := by
  have hhours : pyInt (pyFloorDiv s 3600) = ⌊s / 3600⌋ := pyInt_intCast _
  have hmin : pyInt (pyFloorDiv (pyMod s 3600) 60) = ⌊(s - 3600 * (⌊s / 3600⌋ : ℚ)) / 60⌋ :=
    pyInt_intCast _
  have hsecs : pyInt (pyMod s 60) = ⌊s - 60 * (⌊s / 60⌋ : ℚ)⌋ :=
    pyInt_of_nonneg (pyMod_nonneg s (by norm_num))
  have hself : pyInt s = ⌊s⌋ := pyInt_of_nonneg hs
  have hmilnn : 0 ≤ (s - (⌊s⌋ : ℚ)) * 1000 := by
    have := Int.floor_le s
    nlinarith
  have hmil : pyInt ((s - (pyInt s : ℚ)) * 1000) = ⌊(s - (⌊s⌋ : ℚ)) * 1000⌋ := by
    rw [hself]
    exact pyInt_of_nonneg hmilnn
  simp only [format_timestamp]
  rw [hhours, hmin, hsecs, hmil]

/-- C6: for non-negative seconds the formatter produces `HH:MM:SS,mmm` with
hours `⌊s/3600⌋`, minutes `⌊(s mod 3600)/60⌋`, seconds `⌊s mod 60⌋` and
milliseconds `⌊(s − ⌊s⌋)·1000⌋`, truncating and never rounding up; in
particular `format 0 = "00:00:00,000"`, `format 3661.5 = "01:01:01,500"`
and `format 59.9996 = "00:00:59,999"`. -/
theorem format_timestamp_spec (s : ℚ) (hs : 0 ≤ s) :
    format_timestamp s =
      zfill 2 ⌊s / 3600⌋ ++ ':' :: zfill 2 ⌊(s - 3600 * (⌊s / 3600⌋ : ℚ)) / 60⌋ ++
        ':' :: zfill 2 ⌊s - 60 * (⌊s / 60⌋ : ℚ)⌋ ++ ',' :: zfill 3 ⌊(s - (⌊s⌋ : ℚ)) * 1000⌋ ∧
    format_timestamp 0 = ['0', '0', ':', '0', '0', ':', '0', '0', ',', '0', '0', '0'] ∧
    format_timestamp (7323 / 2) = ['0', '1', ':', '0', '1', ':', '0', '1', ',', '5', '0', '0'] ∧
    format_timestamp (149999 / 2500) =
      ['0', '0', ':', '0', '0', ':', '5', '9', ',', '9', '9', '9'] := by
  refine ⟨format_timestamp_eq s hs, ?_, ?_, ?_⟩
  · rw [format_timestamp_eq 0 le_rfl]
    norm_num
    decide
  · rw [format_timestamp_eq (7323 / 2) (by norm_num)]
    have h1 : ⌊(7323 / 2 : ℚ) / 3600⌋ = 1 := by norm_num
    have h2 : ⌊((7323 / 2 : ℚ) - 3600 * ((1 : ℤ) : ℚ)) / 60⌋ = 1 := by norm_num
    have h3 : ⌊(7323 / 2 : ℚ) - 60 * ((⌊(7323 / 2 : ℚ) / 60⌋ : ℤ) : ℚ)⌋ = 1 := by norm_num
    have h4 : ⌊((7323 / 2 : ℚ) - ((⌊(7323 / 2 : ℚ)⌋ : ℤ) : ℚ)) * 1000⌋ = 500 := by norm_num
    rw [h1, h2, h3, h4]
    decide
  · rw [format_timestamp_eq (149999 / 2500) (by norm_num)]
    have h1 : ⌊(149999 / 2500 : ℚ) / 3600⌋ = 0 := by norm_num
    have h2 : ⌊((149999 / 2500 : ℚ) - 3600 * ((0 : ℤ) : ℚ)) / 60⌋ = 0 := by norm_num
    have h3 : ⌊(149999 / 2500 : ℚ) - 60 * ((⌊(149999 / 2500 : ℚ) / 60⌋ : ℤ) : ℚ)⌋ = 59 := by
      norm_num
    have h4 : ⌊((149999 / 2500 : ℚ) - ((⌊(149999 / 2500 : ℚ)⌋ : ℤ) : ℚ)) * 1000⌋ = 999 := by
      norm_num
    rw [h1, h2, h3, h4]
    decide

/-- Witness for C6 at `s = 3661.5`. -/
theorem format_timestamp_spec_witness :
    format_timestamp (7323 / 2) = ['0', '1', ':', '0', '1', ':', '0', '1', ',', '5', '0', '0'] :=
  (format_timestamp_spec (7323 / 2) (by norm_num)).2.2.1

/-! ### Invariant machinery for the word-level pipeline -/

theorem runWords_preserve (f : Chars) (cl : Nat) (P : WState → Prop) (segs : List Segment)
    (h : ∀ st seg w, seg ∈ segs → w ∈ seg.words → P st → P (processWord f cl st w))
    (st : WState) (hst : P st) : P (runWords f cl st segs) := by
  unfold runWords
  refine foldl_preserve _ P segs st (fun t seg hseg ht => ?_) hst
  exact foldl_preserve _ P seg.words t (fun u w hw hu => h u seg w hseg hw hu) ht

theorem processWord_skip (f : Chars) (cl : Nat) (st : WState) (w : Word)
    (h : strip (clean_text f w.text) = []) : processWord f cl st w = st := by
  unfold processWord
  rw [if_pos h]

theorem processWord_text_nil (f : Chars) (cl : Nat) (st : WState) (w : Word)
    (h : st.currentText = [] → st.cues = []) :
    (processWord f cl st w).currentText = [] → (processWord f cl st w).cues = [] := by
  simp only [processWord]
  split_ifs with h1 h2
  · exact h
  · intro habs
    simp at habs
  · intro habs
    simp at habs

/-! ### C9: no segments, or all words whitespace after cleaning -/

/-- C9: when there are no segments, or every word's cleaned text is
whitespace-only, the word-level writer produces zero cues and no error (the
final-cue branch is guarded by the buffer being non-empty, so the
otherwise-unbound segment variable is never dereferenced: the result is
`some []`, not `none`). -/
theorem create_word_srt_all_empty (f : Chars) (cl : Nat) (segs : List Segment)
    (h : ∀ seg ∈ segs, ∀ w ∈ seg.words, strip (clean_text f w.text) = []) :
    create_word_srt f cl segs = some [] := by
  have hrun : runWords f cl ⟨[], none, 1, []⟩ segs = ⟨[], none, 1, []⟩ :=
    runWords_preserve f cl (fun st => st = ⟨[], none, 1, []⟩) segs
      (fun st seg w hseg hw hst => by
        subst hst
        exact processWord_skip f cl _ w (h seg hseg w hw)) _ rfl
  simp only [create_word_srt]
  rw [hrun]
  simp

/-- Witness for C9: one segment whose only word is a single space. -/
theorem create_word_srt_all_empty_witness :
    create_word_srt [] 20 [⟨0, 1, [], [⟨0, [' ']⟩]⟩] = some [] :=
  create_word_srt_all_empty [] 20 [⟨0, 1, [], [⟨0, [' ']⟩]⟩] (by decide)

/-! ### C2: the end time of the final cue -/

/-- C2 (counterexample): the final cue's end time is the end of the LAST
segment in the input list, not of the last contributing one.  Here the
second segment has no words at all, yet the single emitted cue ends at `5`
(the second segment's end), while the last segment that supplied a
non-empty cleaned word ends at `1`. -/
theorem create_word_srt_final_stop_counterexample :
    create_word_srt [] 20 [⟨0, 1, [], [⟨0, ['H', 'i']⟩]⟩, ⟨2, 5, [], []⟩] =
      some [⟨1, 0, 5, ['H', 'i']⟩] ∧
    specLastContributingStop [] [⟨0, 1, [], [⟨0, ['H', 'i']⟩]⟩, ⟨2, 5, [], []⟩] = some 1 ∧
    (5 : ℚ) ≠ 1 := by
  refine ⟨?_, ?_, by norm_num⟩
  · simp +decide [create_word_srt, runWords, processWord, clean_text, cleanToks, splitWs,
      splitWsGo, strip, lstrip, rstrip, List.foldl]
  · simp +decide [specLastContributingStop, clean_text, cleanToks, splitWs, splitWsGo,
      strip, lstrip, rstrip]

/-- C2 (amended): whenever the word-level run emits at least one cue, the
final cue's end time equals the end time of the LAST segment of the input
list (the loop variable after the loop) — whether or not that segment
contributed any word. -/
theorem create_word_srt_final_stop (f : Chars) (cl : Nat) (segs : List Segment)
    (cues : List Cue) (h : create_word_srt f cl segs = some cues) (hne : cues ≠ []) :
    ∃ seg, segs.getLast? = some seg ∧ cues.getLast?.map Cue.stop = some seg.stop := by
  have hinv : (runWords f cl ⟨[], none, 1, []⟩ segs).currentText = [] →
      (runWords f cl ⟨[], none, 1, []⟩ segs).cues = [] :=
    runWords_preserve f cl (fun st => st.currentText = [] → st.cues = []) segs
      (fun st seg w _ _ hst => processWord_text_nil f cl st w hst) _ (fun _ => rfl)
  simp only [create_word_srt] at h
  by_cases hct : (runWords f cl ⟨[], none, 1, []⟩ segs).currentText = []
  · rw [if_pos hct] at h
    obtain rfl : (runWords f cl ⟨[], none, 1, []⟩ segs).cues = cues := Option.some.inj h
    exact absurd (hinv hct) hne
  · rw [if_neg hct] at h
    cases hseg : segs.getLast? with
    | none =>
      rw [hseg] at h
      simp at h
    | some seg =>
      cases hcs : (runWords f cl ⟨[], none, 1, []⟩ segs).currentStart with
      | none =>
        rw [hseg, hcs] at h
        simp at h
      | some s =>
        rw [hseg, hcs] at h
        obtain rfl :
            (runWords f cl ⟨[], none, 1, []⟩ segs).cues ++
              [⟨(runWords f cl ⟨[], none, 1, []⟩ segs).count, s, seg.stop,
                strip (runWords f cl ⟨[], none, 1, []⟩ segs).currentText⟩] = cues :=
          Option.some.inj h
        refine ⟨seg, rfl, ?_⟩
        rw [List.getLast?_concat]
        rfl

/-- Witness for the amended C2: one segment, one word. -/
theorem create_word_srt_final_stop_witness :
    ∃ seg, ([⟨0, 3, [], [⟨0, ['H', 'i']⟩]⟩] : List Segment).getLast? = some seg ∧
      ([⟨1, 0, 3, ['H', 'i']⟩] : List Cue).getLast?.map Cue.stop = some seg.stop :=
  create_word_srt_final_stop [] 20 [⟨0, 3, [], [⟨0, ['H', 'i']⟩]⟩] [⟨1, 0, 3, ['H', 'i']⟩]
    (by simp +decide [create_word_srt, runWords, processWord, clean_text, cleanToks, splitWs,
      splitWsGo, strip, lstrip, rstrip, List.foldl])
    (by simp)

/-! ### C1: the concrete end-to-end scenario -/

/-- C1 (counterexample): with charLimit 10 and no removals, the scenario
segment produces THREE cues, not two: `"world today"` is 11 characters, so
the check `len("world " + "today") = 11 > 10` splits again. -/
theorem word_scenario_counterexample :
    (create_word_srt [] 10
        [⟨0, 2, [],
          [⟨0, ['H', 'e', 'l', 'l', 'o']⟩, ⟨1 / 2, ['w', 'o', 'r', 'l', 'd']⟩,
            ⟨1, ['t', 'o', 'd', 'a', 'y']⟩]⟩]).map List.length = some 3 ∧
    ¬ (create_word_srt [] 10
        [⟨0, 2, [],
          [⟨0, ['H', 'e', 'l', 'l', 'o']⟩, ⟨1 / 2, ['w', 'o', 'r', 'l', 'd']⟩,
            ⟨1, ['t', 'o', 'd', 'a', 'y']⟩]⟩]).map List.length = some 2 := by
  constructor
  · simp +decide [create_word_srt, runWords, processWord, clean_text, cleanToks, splitWs,
      splitWsGo, strip, lstrip, rstrip, List.foldl]
  · simp +decide [create_word_srt, runWords, processWord, clean_text, cleanToks, splitWs,
      splitWsGo, strip, lstrip, rstrip, List.foldl]

/-! ### C8: contiguous cue indices -/

theorem indices_snoc (cs : List Cue) (n : Nat) (a b : ℚ) (t : Chars)
    (hmap : cs.map Cue.index = List.range' 1 cs.length) (hn : n = cs.length + 1) :
    (cs ++ [(⟨n, a, b, t⟩ : Cue)]).map Cue.index =
      List.range' 1 (cs ++ [(⟨n, a, b, t⟩ : Cue)]).length := by
  rw [List.map_append, hmap]
  simp only [List.map_cons, List.map_nil, List.length_append, List.length_cons,
    List.length_nil, Nat.add_zero]
  rw [range'_snoc]
  simp only [List.append_cancel_left_eq, List.cons.injEq, and_true]
  omega

theorem processWord_indices (f : Chars) (cl : Nat) (st : WState) (w : Word)
    (h : st.cues.map Cue.index = List.range' 1 st.cues.length ∧ st.count = st.cues.length + 1) :
    (processWord f cl st w).cues.map Cue.index =
        List.range' 1 (processWord f cl st w).cues.length ∧
      (processWord f cl st w).count = (processWord f cl st w).cues.length + 1 := by
  simp only [processWord]
  split_ifs with h1 h2
  · exact h
  · obtain ⟨hmap, hcount⟩ := h
    refine ⟨indices_snoc st.cues st.count _ _ _ hmap hcount, ?_⟩
    simp only [List.length_append, List.length_cons, List.length_nil]
    omega
  · exact h

theorem sentStep_indices (f : Chars) (acc : Nat × List Cue) (seg : Segment)
    (h : acc.2.map Cue.index = List.range' 1 acc.2.length ∧ acc.1 = acc.2.length + 1) :
    (sentStep f acc seg).2.map Cue.index = List.range' 1 (sentStep f acc seg).2.length ∧
      (sentStep f acc seg).1 = (sentStep f acc seg).2.length + 1 := by
  simp only [sentStep]
  split_ifs with h1
  · exact h
  · obtain ⟨hmap, hcount⟩ := h
    refine ⟨indices_snoc acc.2 acc.1 _ _ _ hmap hcount, ?_⟩
    simp only [List.length_append, List.length_cons, List.length_nil]
    omega

/-- C8: in both pipelines the emitted cue indices form the contiguous
sequence 1, 2, 3, … with no gaps, regardless of how many words or segments
were skipped for being empty after cleaning. -/
theorem cue_indices_contiguous (f : Chars) (cl : Nat) (wsegs ssegs : List Segment)
    (cues : List Cue) (h : create_word_srt f cl wsegs = some cues) :
    cues.map Cue.index = List.range' 1 cues.length ∧
    (create_sentence_srt f ssegs).map Cue.index =
      List.range' 1 (create_sentence_srt f ssegs).length := by
  constructor
  · have hinv :=
      runWords_preserve f cl
        (fun st => st.cues.map Cue.index = List.range' 1 st.cues.length ∧
          st.count = st.cues.length + 1)
        wsegs (fun st seg w _ _ hst => processWord_indices f cl st w hst)
        ⟨[], none, 1, []⟩ (by simp [List.range'])
    simp only [create_word_srt] at h
    by_cases hct : (runWords f cl ⟨[], none, 1, []⟩ wsegs).currentText = []
    · rw [if_pos hct] at h
      obtain rfl := Option.some.inj h
      exact hinv.1
    · rw [if_neg hct] at h
      cases hseg : wsegs.getLast? with
      | none =>
        rw [hseg] at h
        simp at h
      | some seg =>
        cases hcs : (runWords f cl ⟨[], none, 1, []⟩ wsegs).currentStart with
        | none =>
          rw [hseg, hcs] at h
          simp at h
        | some s =>
          rw [hseg, hcs] at h
          obtain rfl := Option.some.inj h
          exact indices_snoc _ _ _ _ _ hinv.1 hinv.2
  · have hinv :=
      foldl_preserve (sentStep f)
        (fun acc => acc.2.map Cue.index = List.range' 1 acc.2.length ∧
          acc.1 = acc.2.length + 1)
        ssegs (1, []) (fun acc seg _ hacc => sentStep_indices f acc seg hacc)
        (by simp [List.range'])
    exact hinv.1

/-- Witness for C8 at a one-segment word-level input and a one-segment
sentence-level input. -/
theorem cue_indices_contiguous_witness :
    ([⟨1, 0, 3, ['H', 'i']⟩] : List Cue).map Cue.index =
        List.range' 1 ([⟨1, 0, 3, ['H', 'i']⟩] : List Cue).length ∧
      (create_sentence_srt [] [⟨0, 1, ['o', 'k'], []⟩]).map Cue.index =
        List.range' 1 (create_sentence_srt [] [⟨0, 1, ['o', 'k'], []⟩]).length :=
  cue_indices_contiguous [] 20 [⟨0, 3, [], [⟨0, ['H', 'i']⟩]⟩] [⟨0, 1, ['o', 'k'], []⟩]
    [⟨1, 0, 3, ['H', 'i']⟩]
    (by simp +decide [create_word_srt, runWords, processWord, clean_text, cleanToks, splitWs,
      splitWsGo, strip, lstrip, rstrip, List.foldl])

/-! ### C4: the character budget on emitted cues -/

theorem flush_text_ok (f : Chars) (cl : Nat) (segs : List Segment) (t : Chars)
    (hR : t = [] ∨ (strip t).length ≤ cl ∨
      ∃ seg ∈ segs, ∃ w ∈ seg.words, t = clean_text f w.text ++ [' ']) :
    (strip t).length ≤ cl ∨
      ∃ seg ∈ segs, ∃ w ∈ seg.words,
        strip t = strip (clean_text f w.text) ∧ cl < (clean_text f w.text).length := by
  rcases hR with rfl | hle | ⟨seg, hseg, w, hw, rfl⟩
  · left
    simp [strip_nil]
  · left
    exact hle
  · rw [strip_append_space]
    by_cases hlen : (strip (clean_text f w.text)).length ≤ cl
    · left
      exact hlen
    · right
      refine ⟨seg, hseg, w, hw, rfl, ?_⟩
      have := strip_length_le (clean_text f w.text)
      omega

theorem processWord_budget (f : Chars) (cl : Nat) (segs : List Segment) (st : WState)
    (seg : Segment) (w : Word) (hseg : seg ∈ segs) (hw : w ∈ seg.words)
    (h : (∀ cue ∈ st.cues, cue.text.length ≤ cl ∨
          ∃ sg ∈ segs, ∃ u ∈ sg.words,
            cue.text = strip (clean_text f u.text) ∧ cl < (clean_text f u.text).length) ∧
        (st.currentText = [] ∨ (strip st.currentText).length ≤ cl ∨
          ∃ sg ∈ segs, ∃ u ∈ sg.words, st.currentText = clean_text f u.text ++ [' '])) :
    (∀ cue ∈ (processWord f cl st w).cues, cue.text.length ≤ cl ∨
        ∃ sg ∈ segs, ∃ u ∈ sg.words,
          cue.text = strip (clean_text f u.text) ∧ cl < (clean_text f u.text).length) ∧
      ((processWord f cl st w).currentText = [] ∨
        (strip (processWord f cl st w).currentText).length ≤ cl ∨
        ∃ sg ∈ segs, ∃ u ∈ sg.words,
          (processWord f cl st w).currentText = clean_text f u.text ++ [' ']) := by
  simp only [processWord]
  split_ifs with h1 h2
  · exact h
  · obtain ⟨hc, hR⟩ := h
    constructor
    · intro cue hcue
      rcases List.mem_append.mp hcue with hin | hnew
      · exact hc cue hin
      · have heq := List.mem_singleton.mp hnew
        subst heq
        exact flush_text_ok f cl segs st.currentText hR
    · right
      right
      exact ⟨seg, hseg, w, hw, rfl⟩
  · obtain ⟨hc, hR⟩ := h
    refine ⟨hc, Or.inr (Or.inl ?_)⟩
    rw [← List.append_assoc, strip_append_space]
    have hlen := strip_length_le (st.currentText ++ clean_text f w.text)
    omega

/-- C4: every emitted word-level cue either has (trimmed) text of length at
most `charLimit`, or its text is exactly one cleaned word whose length
alone exceeds `charLimit` (so an oversized word becomes its own one-word
cue and is never split). -/
theorem word_cue_text_length (f : Chars) (cl : Nat) (segs : List Segment) (cues : List Cue)
    (h : create_word_srt f cl segs = some cues) :
    ∀ cue ∈ cues, cue.text.length ≤ cl ∨
      ∃ sg ∈ segs, ∃ u ∈ sg.words,
        cue.text = strip (clean_text f u.text) ∧ cl < (clean_text f u.text).length := by
  have hinv :=
    runWords_preserve f cl
      (fun st => (∀ cue ∈ st.cues, cue.text.length ≤ cl ∨
          ∃ sg ∈ segs, ∃ u ∈ sg.words,
            cue.text = strip (clean_text f u.text) ∧ cl < (clean_text f u.text).length) ∧
        (st.currentText = [] ∨ (strip st.currentText).length ≤ cl ∨
          ∃ sg ∈ segs, ∃ u ∈ sg.words, st.currentText = clean_text f u.text ++ [' ']))
      segs (fun st seg w hseg hw hst => processWord_budget f cl segs st seg w hseg hw hst)
      ⟨[], none, 1, []⟩ (by simp)
  simp only [create_word_srt] at h
  by_cases hct : (runWords f cl ⟨[], none, 1, []⟩ segs).currentText = []
  · rw [if_pos hct] at h
    obtain rfl := Option.some.inj h
    exact hinv.1
  · rw [if_neg hct] at h
    cases hseg : segs.getLast? with
    | none =>
      rw [hseg] at h
      simp at h
    | some seg =>
      cases hcs : (runWords f cl ⟨[], none, 1, []⟩ segs).currentStart with
      | none =>
        rw [hseg, hcs] at h
        simp at h
      | some s =>
        rw [hseg, hcs] at h
        obtain rfl := Option.some.inj h
        intro cue hcue
        rcases List.mem_append.mp hcue with hin | hnew
        · exact hinv.1 cue hin
        · have heq := List.mem_singleton.mp hnew
          subst heq
          exact flush_text_ok f cl segs _ hinv.2

/-- Witness for C4: a run with one short word. -/
theorem word_cue_text_length_witness :
    (⟨1, 0, 3, ['H', 'i']⟩ : Cue).text.length ≤ 20 ∨
      ∃ sg ∈ ([⟨0, 3, [], [⟨0, ['H', 'i']⟩]⟩] : List Segment), ∃ u ∈ sg.words,
        (⟨1, 0, 3, ['H', 'i']⟩ : Cue).text = strip (clean_text [] u.text) ∧
          20 < (clean_text [] u.text).length :=
  word_cue_text_length [] 20 [⟨0, 3, [], [⟨0, ['H', 'i']⟩]⟩] [⟨1, 0, 3, ['H', 'i']⟩]
    (by simp +decide [create_word_srt, runWords, processWord, clean_text, cleanToks, splitWs,
      splitWsGo, strip, lstrip, rstrip, List.foldl])
    ⟨1, 0, 3, ['H', 'i']⟩ (by simp)

/-- C1 (amended): the scenario yields exactly three cues: `"Hello"` from
0 to 0.5, `"world"` from 0.5 to 1 (closed by the overflow of adding
`"today"`), and `"today"` from 1 to 2 (the segment's end). -/
theorem word_scenario :
    create_word_srt [] 10
        [⟨0, 2, [],
          [⟨0, ['H', 'e', 'l', 'l', 'o']⟩, ⟨1 / 2, ['w', 'o', 'r', 'l', 'd']⟩,
            ⟨1, ['t', 'o', 'd', 'a', 'y']⟩]⟩] =
      some [⟨1, 0, 1 / 2, ['H', 'e', 'l', 'l', 'o']⟩, ⟨2, 1 / 2, 1, ['w', 'o', 'r', 'l', 'd']⟩,
        ⟨3, 1, 2, ['t', 'o', 'd', 'a', 'y']⟩] := by
  simp +decide [create_word_srt, runWords, processWord, clean_text, cleanToks, splitWs,
    splitWsGo, strip, lstrip, rstrip, List.foldl]

/-! ### Decimal digit lemmas for the unique-filename resolver -/

theorem digitToChar_toNat {d : Nat} (h : d < 10) : (digitToChar d).toNat - 48 = d := by
  interval_cases d <;> rfl

theorem digitToChar_isDigit (d : Nat) : (digitToChar d).isDigit = true := by
  unfold digitToChar
  split_ifs <;> rfl

theorem natToDigitsAux_digits :
    ∀ (fuel n : Nat), ∀ c ∈ natToDigitsAux fuel n, c.isDigit = true := by
  intro fuel
  induction fuel with
  | zero =>
    intro n c hc
    simp [natToDigitsAux] at hc
  | succ fuel ih =>
    intro n c hc
    simp only [natToDigitsAux] at hc
    by_cases hn : n = 0
    · rw [if_pos hn] at hc
      simp at hc
    · rw [if_neg hn] at hc
      rcases List.mem_append.mp hc with h1 | h2
      · exact ih (n / 10) c h1
      · rw [List.mem_singleton.mp h2]
        exact digitToChar_isDigit _

theorem natStr_digits (n : Nat) : ∀ c ∈ natStr n, c.isDigit = true := by
  unfold natStr
  split_ifs with h
  · intro c hc
    rw [List.mem_singleton.mp hc]
    rfl
  · exact natToDigitsAux_digits (n + 1) n

theorem natStr_ne_nil (n : Nat) : natStr n ≠ [] := by
  unfold natStr
  split_ifs with h
  · simp
  · simp only [natToDigitsAux]
    rw [if_neg h]
    simp

theorem natOfDigitChars_aux :
    ∀ (fuel n : Nat), n ≤ fuel → natOfDigitChars (natToDigitsAux fuel n) = n := by
  intro fuel
  induction fuel with
  | zero =>
    intro n h
    obtain rfl : n = 0 := Nat.le_zero.mp h
    rfl
  | succ fuel ih =>
    intro n h
    simp only [natToDigitsAux]
    by_cases hn : n = 0
    · rw [if_pos hn]
      subst hn
      rfl
    · rw [if_neg hn]
      have hdiv : n / 10 ≤ fuel := by
        have := Nat.div_lt_self (Nat.pos_of_ne_zero hn) (by norm_num : 1 < 10)
        omega
      simp only [natOfDigitChars, List.foldl_append, List.foldl_cons, List.foldl_nil]
      have hrec : (natToDigitsAux fuel (n / 10)).foldl (fun a c => a * 10 + (c.toNat - 48)) 0
          = n / 10 := ih (n / 10) hdiv
      rw [hrec, digitToChar_toNat (Nat.mod_lt n (by norm_num))]
      omega

theorem natOfDigitChars_natStr (n : Nat) : natOfDigitChars (natStr n) = n := by
  unfold natStr
  split_ifs with h
  · subst h
    rfl
  · exact natOfDigitChars_aux (n + 1) n (by omega)

theorem takeWhile_digits (l1 l2 : Chars) (h : ∀ c ∈ l1, c.isDigit = true) :
    (l1 ++ '(' :: l2).takeWhile Char.isDigit = l1 := by
  induction l1 with
  | nil => simp [List.takeWhile_cons]
  | cons c t ih =>
    simp only [List.cons_append, List.takeWhile_cons, h c (List.mem_cons_self ..), if_true]
    rw [ih (fun x hx => h x (List.mem_cons_of_mem _ hx))]

theorem dropWhile_digits (l1 l2 : Chars) (h : ∀ c ∈ l1, c.isDigit = true) :
    (l1 ++ '(' :: l2).dropWhile Char.isDigit = '(' :: l2 := by
  induction l1 with
  | nil => simp [List.dropWhile_cons]
  | cons c t ih =>
    simp only [List.cons_append, List.dropWhile_cons, h c (List.mem_cons_self ..), if_true]
    exact ih (fun x hx => h x (List.mem_cons_of_mem _ hx))

theorem parseSuffix_mkStem (b : Chars) (c : Nat) : parseSuffix (mkStem b c) = some (b, c) := by
  have hrev : (mkStem b c).reverse = ')' :: ((natStr c).reverse ++ '(' :: b.reverse) := by
    simp [mkStem]
  have hdig : ∀ x ∈ (natStr c).reverse, x.isDigit = true := fun x hx =>
    natStr_digits c x (List.mem_reverse.mp hx)
  unfold parseSuffix
  rw [hrev]
  simp only [parseSuffixRev, if_pos rfl, takeWhile_digits _ _ hdig, dropWhile_digits _ _ hdig]
  rw [if_neg (fun hh => natStr_ne_nil c (List.reverse_eq_nil_iff.mp hh))]
  simp [natOfDigitChars_natStr]

/-! ### C7 and C10: the unique-filename resolver -/

theorem uniqueLoop_spec (fs : List PyPath) :
    ∀ (fuel : Nat) (b : Chars) (c : Nat) (par suf : Chars) (q : PyPath),
      uniqueLoop fs fuel ⟨par, mkStem b c, suf⟩ = some q →
      q ∉ fs ∧ ∃ k, c ≤ k ∧ q = ⟨par, mkStem b k, suf⟩ := by
  intro fuel
  induction fuel with
  | zero =>
    intro b c par suf q h
    simp [uniqueLoop] at h
  | succ fuel ih =>
    intro b c par suf q h
    simp only [uniqueLoop] at h
    by_cases hmem : (⟨par, mkStem b c, suf⟩ : PyPath) ∈ fs
    · rw [if_pos hmem] at h
      have hp : parseSuffix (⟨par, mkStem b c, suf⟩ : PyPath).stem = some (b, c) :=
        parseSuffix_mkStem b c
      rw [hp] at h
      obtain ⟨hq, k, hk, rfl⟩ := ih b (c + 1) par suf q h
      exact ⟨hq, k, by omega, rfl⟩
    · rw [if_neg hmem] at h
      obtain rfl : (⟨par, mkStem b c, suf⟩ : PyPath) = q := Option.some.inj h
      exact ⟨hmem, c, le_rfl, rfl⟩

/-- C7: whenever the resolver returns a path, that path is never the input
path (even if the input did not exist, a `(n)` suffix was appended), it
carries a numeric suffix `(n)` with `n ≥ 1`, and it does not exist in the
modelled filesystem. -/
theorem get_unique_filename_spec (fs : List PyPath) (fuel : Nat) (path q : PyPath)
    (h : get_unique_filename fs fuel path = some q) :
    q ∉ fs ∧ q ≠ path ∧ ∃ b n, 1 ≤ n ∧ q.stem = mkStem b n := by
  simp only [get_unique_filename] at h
  cases hp : parseSuffix path.stem with
  | none =>
    rw [hp] at h
    obtain ⟨hq, k, hk, rfl⟩ := uniqueLoop_spec fs fuel path.stem 1 path.parent path.suffix q h
    refine ⟨hq, ?_, path.stem, k, hk, rfl⟩
    intro heq
    have hstem : path.stem = mkStem path.stem k := (congrArg PyPath.stem heq).symm
    have hps : parseSuffix (mkStem path.stem k) = some (path.stem, k) :=
      parseSuffix_mkStem _ _
    rw [← hstem, hp] at hps
    exact Option.noConfusion hps
  | some bc =>
    obtain ⟨b0, n0⟩ := bc
    rw [hp] at h
    obtain ⟨hq, k, hk, rfl⟩ :=
      uniqueLoop_spec fs fuel b0 (n0 + 1) path.parent path.suffix q h
    refine ⟨hq, ?_, b0, k, by omega, rfl⟩
    intro heq
    have hstem : path.stem = mkStem b0 k := (congrArg PyPath.stem heq).symm
    have hps : parseSuffix (mkStem b0 k) = some (b0, k) := parseSuffix_mkStem _ _
    rw [← hstem, hp] at hps
    have hnk : n0 = k := congrArg Prod.snd (Option.some.inj hps)
    omega

/-- Witness for C7: resolving `a.srt` against an empty filesystem yields
`a(1).srt`. -/
theorem get_unique_filename_spec_witness :
    (⟨[], ['a', '(', '1', ')'], ['.', 's', 'r', 't']⟩ : PyPath) ∉ ([] : List PyPath) ∧
      (⟨[], ['a', '(', '1', ')'], ['.', 's', 'r', 't']⟩ : PyPath) ≠
        (⟨[], ['a'], ['.', 's', 'r', 't']⟩ : PyPath) ∧
      ∃ b n, 1 ≤ n ∧
        (⟨[], ['a', '(', '1', ')'], ['.', 's', 'r', 't']⟩ : PyPath).stem = mkStem b n :=
  get_unique_filename_spec [] 1 ⟨[], ['a'], ['.', 's', 'r', 't']⟩
    ⟨[], ['a', '(', '1', ')'], ['.', 's', 'r', 't']⟩ (by decide)

/-- C10: when the input stem already ends in `(n)`, the resolver continues
the counter: the result's stem is `base(n+k)` for some `k ≥ 1` relative to
the same base, and re-parsing it recovers that single counter — never a
stacked `base(n)(1)`. -/
theorem get_unique_filename_counter (fs : List PyPath) (fuel : Nat) (path q : PyPath)
    (b0 : Chars) (n0 : Nat) (hp : parseSuffix path.stem = some (b0, n0))
    (h : get_unique_filename fs fuel path = some q) :
    ∃ k, 1 ≤ k ∧ q.stem = mkStem b0 (n0 + k) ∧ parseSuffix q.stem = some (b0, n0 + k) := by
  simp only [get_unique_filename, hp] at h
  obtain ⟨hq, k, hk, rfl⟩ := uniqueLoop_spec fs fuel b0 (n0 + 1) path.parent path.suffix q h
  refine ⟨k - n0, by omega, ?_, ?_⟩
  · have : n0 + (k - n0) = k := by omega
    rw [this]
  · have : n0 + (k - n0) = k := by omega
    rw [this]
    exact parseSuffix_mkStem b0 k

/-- Witness for C10: resolving `a(1).srt` against an empty filesystem
yields `a(2).srt`. -/
theorem get_unique_filename_counter_witness :
    ∃ k, 1 ≤ k ∧
      (⟨[], ['a', '(', '2', ')'], ['.', 's', 'r', 't']⟩ : PyPath).stem =
        mkStem ['a'] (1 + k) ∧
      parseSuffix (⟨[], ['a', '(', '2', ')'], ['.', 's', 'r', 't']⟩ : PyPath).stem =
        some (['a'], 1 + k) :=
  get_unique_filename_counter [] 1 ⟨[], ['a', '(', '1', ')'], ['.', 's', 'r', 't']⟩
    ⟨[], ['a', '(', '2', ')'], ['.', 's', 'r', 't']⟩ ['a'] 1 (by decide) (by decide)

end Transcriber
